import Mathlib

/-!
Verification of the jacl repository's real-time hand-off primitives:
the single-producer/single-consumer lock-free queue with deferred
reclamation (src/jack-stdin-to-midi.c), the hex line-protocol codec
(src/jack-stdin-to-midi.c, src/jack-midi-to-stdin.c), the scalar CV
line handler (src/cv.c), and the non-blocking event loop shared by
all three programs.

The heap of queue nodes is modelled as a list of optional nodes:
an address is an index into the list, allocation appends at the end
(so addresses record allocation order), and freeing a node replaces
its entry with `none`.  Machine pointers become `Nat` addresses and
the atomic `next` field becomes `Option Nat`.  The single-threaded
(sequential-interleaving) semantics is faithful to the source because
every claim under study concerns sequences of whole calls performed
by their designated threads.
-/

namespace Jacl

/-- A queue node (`struct Node` in src/jack-stdin-to-midi.c): the atomic
`next` pointer and the variable-length byte payload.  `length` in the C
struct is the payload length, here `message.length`. -/
structure Node where
  next : Option Nat
  message : List Nat
  deriving Repr, DecidableEq

/-- The heap: address `i` holds `some (some node)` when live, `some none`
when freed, and `[i]? = none` when `i` was never allocated. -/
abbrev Heap := List (Option Node)

/-- Queue state (`struct State` in src/jack-stdin-to-midi.c): the heap of
nodes plus the three pointers `malloc_head` (reclamation frontier),
`head` (emission cursor) and `tail`. -/
structure State where
  heap : Heap
  malloc_head : Nat
  head : Nat
  tail : Nat
  deriving Repr, DecidableEq

/-- `node_new`: allocate a node at the next fresh address (the end of the
heap list) with a null `next` pointer, returning the new heap and the
node's address. -/
def node_new (heap : Heap) (message : List Nat) : Heap × Nat :=
  (heap ++ [some { next := none, message := message }], heap.length)

/-- The initial state: a single blank sentinel node (`node_blank`), with
`malloc_head`, `head` and `tail` all pointing at it, as built in `main`. -/
def initState : State :=
  { heap := [some { next := none, message := [] }]
    malloc_head := 0
    head := 0
    tail := 0 }

/-- Store `nx` into the `next` field of the node at address `a`
(the release store `atomic_store_explicit(&old->next, node, ...)`). -/
def setNext (heap : Heap) (a : Nat) (nx : Option Nat) : Heap :=
  match heap[a]? with
  | some (some nd) => heap.set a (some { nd with next := nx })
  | _ => heap

/-- `push_back`: exchange the new node's address into `tail`, then publish
the link by storing it into the previous tail's `next` field. -/
def push_back (s : State) (addr : Nat) : State :=
  { s with tail := addr, heap := setNext s.heap s.tail (some addr) }

/-- Enqueue one message: `node_new` followed by `push_back`, the control
thread's path in `handle_line` for a well-formed line. -/
def enqueue (s : State) (message : List Nat) : State :=
  let r := node_new s.heap message
  push_back { s with heap := r.1 } r.2

/-- The drain loop body of `process`: starting at `node`, repeatedly load
`next`; while it is non-null advance to it and emit its payload; return
the emitted payloads and the final node reached.  The fuel bounds the
number of link-following steps (the heap is finite, so `heap.length`
always suffices for a well-formed state). -/
def drainLoop (heap : Heap) (node : Nat) : Nat → List (List Nat) × Nat
  | 0 => ([], node)
  | fuel + 1 =>
    match heap[node]? with
    | some (some nd) =>
      match nd.next with
      | none => ([], node)
      | some nx =>
        match heap[nx]? with
        | some (some nd2) =>
          let r := drainLoop heap nx fuel
          (nd2.message :: r.1, r.2)
        | _ => ([], node)
    | _ => ([], node)

/-- One invocation of the real-time `process` callback's drain: emit every
payload published after the emission cursor and store the last reached
node back into `head`. -/
def drain (s : State) : List (List Nat) × State :=
  let r := drainLoop s.heap s.head s.heap.length
  (r.1, { s with head := r.2 })

/-- The freeing loop of `free_excess`: `while (node != head)` free the
node and step to its `next` link.  Fuel as in `drainLoop`. -/
def freeLoop (heap : Heap) (node target : Nat) : Nat → Heap
  | 0 => heap
  | fuel + 1 =>
    if node = target then heap
    else
      match heap[node]? with
      | some (some nd) =>
        let heap' := heap.set node none
        match nd.next with
        | some nx => freeLoop heap' nx target fuel
        | none => heap'
      | _ => heap

/-- `free_excess`: load the emission cursor, free every node from the
reclamation frontier `malloc_head` up to (but not including) it, and
advance the frontier to the loaded cursor value. -/
def free_excess (s : State) : State :=
  { s with
    heap := freeLoop s.heap s.malloc_head s.head s.heap.length
    malloc_head := s.head }

/-- `hex_to_int` from src/jack-stdin-to-midi.c; the C function returns
`-1` for a non-hex-digit character, modelled as `none`. -/
def hex_to_int (c : Char) : Option Nat :=
  if '0' ≤ c ∧ c ≤ '9' then some (c.toNat - '0'.toNat)
  else if 'a' ≤ c ∧ c ≤ 'f' then some (c.toNat - 'a'.toNat + 10)
  else if 'A' ≤ c ∧ c ≤ 'F' then some (c.toNat - 'A'.toNat + 10)
  else none

/-- The digit loop of `handle_line`: consume the line two characters per
payload byte (`value << 4` for the even index, `|= value` for the odd
one, i.e. `hi * 16 + lo`), failing on the first non-hex character. -/
def hexPairs : List Char → Option (List Nat)
  | [] => some []
  | [_] => none
  | c1 :: c2 :: rest =>
    match hex_to_int c1, hex_to_int c2 with
    | some hi, some lo =>
      match hexPairs rest with
      | some bs => some ((hi * 16 + lo) :: bs)
      | none => none
    | _, _ => none

/-- The pure decode performed by `handle_line`: reject an odd-length line
(`len & 1`), otherwise run the digit loop. -/
def decodeLine (line : List Char) : Option (List Nat) :=
  if line.length % 2 = 1 then none else hexPairs line

/-- The two per-line decode failure reports of `handle_line`:
`"bad message length"` and `"invalid hex digit"`. -/
inductive LineError where
  | badLength
  | badDigit
  deriving Repr, DecidableEq

/-- `handle_line` from src/jack-stdin-to-midi.c: run `free_excess`, reject
an odd-length line, allocate a node of `len / 2` bytes, fill it from the
hex digits and `push_back` on success; on an invalid digit return without
linking, leaking the already-allocated node (its partially-written
contents, junk in C, are modelled as zeros — they are never read). -/
def handle_line (s : State) (line : List Char) : State × Option LineError :=
  let s1 := free_excess s
  if line.length % 2 = 1 then (s1, some .badLength)
  else
    match hexPairs line with
    | some msg => (enqueue s1 msg, none)
    | none =>
      ({ s1 with
          heap := s1.heap ++
            [some { next := none, message := List.replicate (line.length / 2) 0 }] },
        some .badDigit)

/-- `int_to_hex` from src/jack-midi-to-stdin.c: a 4-bit value to a
lowercase hex digit (`'?'` out of range; unreachable for nibbles). -/
def int_to_hex (n : Nat) : Char :=
  if n ≤ 9 then Char.ofNat ('0'.toNat + n)
  else if n ≤ 15 then Char.ofNat ('a'.toNat + (n - 10))
  else '?'

/-- The encoder body of `process` in src/jack-midi-to-stdin.c: each payload
byte becomes `int_to_hex (value >> 4)` then `int_to_hex (value & 0xf)`. -/
def encodeMsg (msg : List Nat) : List Char :=
  msg.flatMap (fun v => [int_to_hex (v / 16), int_to_hex (v % 16)])

/-- A full encoded line: the hex digits terminated by a single line feed
(an empty message encodes as a bare line feed). -/
def encodeLine (msg : List Nat) : List Char :=
  encodeMsg msg ++ ['\n']

/-- The byte-scanning loop of `main` (src/jack-stdin-to-midi.c lines
323-338, identically src/cv.c lines 296-306 minus the `'X'` case): given
the current line accumulator and the bytes read, return the final
accumulator and the complete lines delivered to the line handler.
An `'X'` discards the partial line; a `'\n'` delivers the accumulated
line; any other byte is appended only while the accumulator is below
`cap` (`sizeof(line) - 1`, 1023 for the MIDI direction, 127 for CV) —
beyond that it is silently dropped. -/
def feedBytes (cap : Nat) : List Char → List Char → List Char × List (List Char)
  | acc, [] => (acc, [])
  | acc, c :: rest =>
    if c = 'X' then feedBytes cap [] rest
    else if c = '\n' then
      let r := feedBytes cap [] rest
      (r.1, acc :: r.2)
    else if acc.length < cap then feedBytes cap (acc ++ [c]) rest
    else feedBytes cap acc rest

/-- `Path heap a vs b`: from address `a` the published links reach `b`,
visiting exactly the addresses `vs` (`a` included when the path is
non-empty, `b` excluded) — the set of nodes `free_excess` walks when the
frontier is `a` and the cursor is `b`.  Links always point to
later-allocated (larger) addresses, which `cons` records. -/
inductive Path (heap : Heap) : Nat → List Nat → Nat → Prop
  | nil (a : Nat) : Path heap a [] a
  | cons (a b c : Nat) (nd : Node) (vs : List Nat)
      (h : heap[a]? = some (some nd)) (hn : nd.next = some b) (hab : a < b)
      (hp : Path heap b vs c) : Path heap a (a :: vs) c

/-- `Chain heap a seg t`: the published tail segment of the queue from
node `a` to the last node `t`; `seg` pairs each address strictly after
`a` with its node's payload, and the node at `t` has a null `next`. -/
inductive Chain (heap : Heap) : Nat → List (Nat × List Nat) → Nat → Prop
  | nil (a : Nat) (nd : Node) (h : heap[a]? = some (some nd))
      (hn : nd.next = none) : Chain heap a [] a
  | cons (a b t : Nat) (nd nd' : Node) (seg : List (Nat × List Nat))
      (h : heap[a]? = some (some nd)) (hn : nd.next = some b) (hab : a < b)
      (h' : heap[b]? = some (some nd'))
      (hc : Chain heap b seg t) : Chain heap a ((b, nd'.message) :: seg) t

/-- The queue representation invariant tying a state to its pending
messages: the reclamation frontier reaches the emission cursor through
live retired nodes, and from the cursor the published chain carries
exactly the pending payloads, ending at `tail`. -/
def Rep (s : State) (pending : List (List Nat)) : Prop :=
  ∃ vs seg, Path s.heap s.malloc_head vs s.head ∧
    Chain s.heap s.head seg s.tail ∧ seg.map Prod.snd = pending

theorem path_le {heap : Heap} {a b : Nat} {vs : List Nat}
    (h : Path heap a vs b) : a ≤ b := by
  induction h with
  | nil => exact le_refl _
  | cons a b c nd vs h hn hab hp ih => omega

theorem path_mem {heap : Heap} {a b : Nat} {vs : List Nat}
    (h : Path heap a vs b) : ∀ v ∈ vs, a ≤ v ∧ v < b := by
  induction h with
  | nil => intro v hv; cases hv
  | cons a b c nd vs h hn hab hp ih =>
    intro v hv
    have hbc := path_le hp
    rcases List.mem_cons.mp hv with rfl | hv
    · omega
    · have := ih v hv; omega

theorem path_length {heap : Heap} {a b : Nat} {vs : List Nat}
    (h : Path heap a vs b) : a + vs.length ≤ b := by
  induction h with
  | nil => simp
  | cons a b c nd vs h hn hab hp ih => simp only [List.length_cons]; omega

theorem path_live {heap : Heap} {a b : Nat} {vs : List Nat}
    (h : Path heap a vs b) : ∀ v ∈ vs, ∃ nd, heap[v]? = some (some nd) := by
  induction h with
  | nil => intro v hv; cases hv
  | cons a b c nd vs h hn hab hp ih =>
    intro v hv
    rcases List.mem_cons.mp hv with rfl | hv
    · exact ⟨nd, h⟩
    · exact ih v hv

theorem path_congr {heap heap2 : Heap} {a b : Nat} {vs : List Nat}
    (hcong : ∀ i, i < b → heap2[i]? = heap[i]?)
    (h : Path heap a vs b) : Path heap2 a vs b := by
  induction h with
  | nil => exact .nil _
  | cons a b c nd vs h hn hab hp ih =>
    have hbc := path_le hp
    exact .cons a b c nd vs (by rw [hcong a (by omega)]; exact h) hn hab (ih hcong)

theorem path_append {heap : Heap} {a b c : Nat} {vs ws : List Nat}
    (h1 : Path heap a vs b) (h2 : Path heap b ws c) :
    Path heap a (vs ++ ws) c := by
  induction h1 with
  | nil => simpa using h2
  | cons a b d nd vs h hn hab hp ih =>
    exact .cons a b c nd (vs ++ ws) h hn hab (ih h2)

theorem chain_le {heap : Heap} {a t : Nat} {seg : List (Nat × List Nat)}
    (h : Chain heap a seg t) : a ≤ t := by
  induction h with
  | nil => exact le_refl _
  | cons a b t nd nd' seg h hn hab h' hc ih => omega

theorem chain_length {heap : Heap} {a t : Nat} {seg : List (Nat × List Nat)}
    (h : Chain heap a seg t) : a + seg.length ≤ t := by
  induction h with
  | nil => simp
  | cons a b t nd nd' seg h hn hab h' hc ih => simp only [List.length_cons]; omega

theorem chain_mem {heap : Heap} {a t : Nat} {seg : List (Nat × List Nat)}
    (h : Chain heap a seg t) : ∀ p ∈ seg, a < p.1 ∧ p.1 ≤ t := by
  induction h with
  | nil => intro p hp; cases hp
  | cons a b t nd nd' seg h hn hab h' hc ih =>
    intro p hp
    rcases List.mem_cons.mp hp with rfl | hp
    · exact ⟨hab, chain_le hc⟩
    · have := ih p hp; omega

theorem chain_first {heap : Heap} {a t : Nat} {seg : List (Nat × List Nat)}
    (h : Chain heap a seg t) : ∃ nd, heap[a]? = some (some nd) := by
  cases h with
  | nil a nd h hn => exact ⟨nd, h⟩
  | cons a b t nd nd' seg h hn hab h' hc => exact ⟨nd, h⟩

theorem chain_last {heap : Heap} {a t : Nat} {seg : List (Nat × List Nat)}
    (h : Chain heap a seg t) :
    ∃ nd, heap[t]? = some (some nd) ∧ nd.next = none := by
  induction h with
  | nil a nd h hn => exact ⟨nd, h, hn⟩
  | cons a b t nd nd' seg h hn hab h' hc ih => exact ih

theorem chain_congr {heap heap2 : Heap} {a t : Nat} {seg : List (Nat × List Nat)}
    (hcong : ∀ i, a ≤ i → i ≤ t → heap2[i]? = heap[i]?)
    (h : Chain heap a seg t) : Chain heap2 a seg t := by
  induction h with
  | nil a nd h hn => exact .nil a nd (by rw [hcong a le_rfl le_rfl]; exact h) hn
  | cons a b t nd nd' seg h hn hab h' hc ih =>
    have hbt := chain_le hc
    refine .cons a b t nd nd' seg ?_ hn hab ?_ ?_
    · rw [hcong a le_rfl (by omega)]; exact h
    · rw [hcong b (by omega) hbt]; exact h'
    · exact ih fun i h1 h2 => hcong i (by omega) h2

theorem chain_to_path {heap : Heap} {a t : Nat} {seg : List (Nat × List Nat)}
    (h : Chain heap a seg t) : ∃ ws, Path heap a ws t := by
  induction h with
  | nil a nd h hn => exact ⟨[], .nil a⟩
  | cons a b t nd nd' seg h hn hab h' hc ih =>
    obtain ⟨ws, hw⟩ := ih
    exact ⟨a :: ws, .cons a b t nd ws h hn hab hw⟩

theorem lt_length_of_getElem? {heap : Heap} {i : Nat} {v : Option Node}
    (h : heap[i]? = some v) : i < heap.length := by
  by_contra hge
  rw [List.getElem?_eq_none (by omega)] at h
  exact Option.noConfusion h

/-- A refined congruence for paths: only the visited addresses matter. -/
theorem path_congr_mem {heap heap2 : Heap} {a b : Nat} {vs : List Nat}
    (h : Path heap a vs b)
    (hcong : ∀ v ∈ vs, heap2[v]? = heap[v]?) : Path heap2 a vs b := by
  induction h with
  | nil => exact .nil _
  | cons a b c nd vs h hn hab hp ih =>
    refine .cons a b c nd vs ?_ hn hab ?_
    · rw [hcong a (List.mem_cons_self a vs)]; exact h
    · exact ih fun v hv => hcong v (List.mem_cons_of_mem a hv)

/-- The drain loop follows the published chain exactly: it emits the
chain's payloads in order and stops at the chain's last node. -/
theorem drainLoop_chain {heap : Heap} {a t : Nat} {seg : List (Nat × List Nat)}
    (h : Chain heap a seg t) :
    ∀ fuel, seg.length ≤ fuel → drainLoop heap a fuel = (seg.map Prod.snd, t) := by
  induction h with
  | nil a nd h hn =>
    intro fuel _
    cases fuel with
    | zero => simp [drainLoop]
    | succ f => simp [drainLoop, h, hn]
  | cons a b t nd nd' seg h hn hab h' hc ih =>
    intro fuel hfuel
    cases fuel with
    | zero => simp at hfuel
    | succ f =>
      have := ih f (by simpa using hfuel)
      simp [drainLoop, h, hn, h', this]

/-- The free loop preserves the heap's length (freeing replaces an entry
with `none`, never removes it). -/
theorem freeLoop_length {node target fuel : Nat} : ∀ {heap : Heap},
    (freeLoop heap node target fuel).length = heap.length := by
  induction fuel generalizing node target with
  | zero => intro heap; rfl
  | succ f ih =>
    intro heap
    by_cases he : node = target
    · simp [freeLoop, he]
    · simp only [freeLoop, he, if_false]
      cases hg : heap[node]? with
      | none => rfl
      | some v =>
        cases v with
        | none => rfl
        | some nd =>
          cases hn : nd.next with
          | none => simp [hn, List.length_set]
          | some nx => simp [hn, ih, List.length_set]

/-- The free loop frees exactly the addresses on the retired path from
the frontier to the cursor, and touches nothing else. -/
theorem freeLoop_path {vs : List Nat} : ∀ {heap : Heap} {a b : Nat},
    Path heap a vs b → ∀ fuel, vs.length ≤ fuel →
    ∀ i, (freeLoop heap a b fuel)[i]? =
      if i ∈ vs then some none else heap[i]? := by
  induction vs with
  | nil =>
    intro heap a b h fuel _ i
    cases h
    cases fuel with
    | zero => simp [freeLoop]
    | succ f => simp [freeLoop]
  | cons v vs ih =>
    intro heap a b h fuel hfuel i
    cases h
    rename_i b' nd hn hh hab hp
    cases fuel with
    | zero => simp at hfuel
    | succ f =>
      have hane : v ≠ b := by
        have := path_le hp; omega
      have halt : v < heap.length := lt_length_of_getElem? hh
      have hmem := path_mem hp
      have hp' : Path (heap.set v none) b' vs b :=
        path_congr_mem hp fun w hw => by
          have := hmem w hw
          exact List.getElem?_set_ne (by omega)
      have hrec := ih hp' f (by simpa using hfuel) i
      simp only [freeLoop, hane, if_false, hh, hn, hrec]
      by_cases hia : i = v
      · subst hia
        have hnv : i ∉ vs := fun hv => by have := hmem i hv; omega
        simp [hnv, List.getElem?_set_eq halt]
      · simp only [List.mem_cons]
        by_cases hiv : i ∈ vs
        · simp [hiv]
        · simp [hia, hiv, List.getElem?_set_ne (Ne.symm hia)]

/-- Appending a freshly linked node at address `n` extends the published
chain by one pair: the generic heap-update shape produced by
`push_back` (link the old tail `t` to `n`, place the new node at `n`). -/
theorem chain_snoc {heap heap2 : Heap} {a t n : Nat} {seg : List (Nat × List Nat)}
    {ndt : Node} {m : List Nat}
    (hc : Chain heap a seg t)
    (ht : heap[t]? = some (some ndt))
    (hcong : ∀ i, i ≤ t → i ≠ t → heap2[i]? = heap[i]?)
    (ht2 : heap2[t]? = some (some { next := some n, message := ndt.message }))
    (hn2 : heap2[n]? = some (some { next := none, message := m }))
    (htn : t < n) :
    Chain heap2 a (seg ++ [(n, m)]) n := by
  induction hc with
  | nil a nd h hnone =>
    have hnd : nd = ndt := by
      rw [h] at ht; injection ht with ht; injection ht
    refine Chain.cons a n n _ { next := none, message := m } [] ht2 rfl htn hn2 ?_
    exact Chain.nil n _ hn2 rfl
  | cons a b t nd nd' seg h hn hab h' hc ih =>
    have hbt := chain_le hc
    have hat : a < t := by omega
    have ha2 : heap2[a]? = some (some nd) := by
      rw [hcong a (by omega) (by omega)]; exact h
    by_cases hbt' : b = t
    · subst hbt'
      have hnd' : nd' = ndt := by
        rw [h'] at ht; injection ht with ht; injection ht
      subst hnd'
      have hmsg : nd'.message =
          (Node.mk (some n) nd'.message).message := rfl
      rw [List.cons_append, show ((b : Nat), nd'.message) =
        (b, (Node.mk (some n) nd'.message).message) from rfl]
      exact Chain.cons a b n nd _ (seg ++ [(n, m)]) ha2 hn hab ht2
        (ih h' hcong ht2 htn)
    · have hb2 : heap2[b]? = some (some nd') := by
        rw [hcong b hbt hbt']; exact h'
      rw [List.cons_append]
      exact Chain.cons a b n nd nd' (seg ++ [(n, m)]) ha2 hn hab hb2
        (ih ht hcong ht2 htn)

theorem setNext_of_getElem? {heap : Heap} {a : Nat} {nd : Node} {nx : Option Nat}
    (h : heap[a]? = some (some nd)) :
    setNext heap a nx = heap.set a (some { nd with next := nx }) := by
  simp [setNext, h]

theorem setNext_length (heap : Heap) (a : Nat) (nx : Option Nat) :
    (setNext heap a nx).length = heap.length := by
  unfold setNext
  cases h : heap[a]? with
  | none => rfl
  | some v => cases v with
    | none => rfl
    | some nd => simp [List.length_set]

/-- The queue invariant holds of the initial single-sentinel state with no
pending messages. -/
theorem rep_init : Rep initState [] :=
  ⟨[], [], .nil 0, .nil 0 { next := none, message := [] } rfl rfl, rfl⟩

/-- Enqueueing preserves the invariant, appending the new message to the
pending list. -/
theorem enqueue_rep {s : State} {p : List (List Nat)} (m : List Nat)
    (h : Rep s p) : Rep (enqueue s m) (p ++ [m]) := by
  obtain ⟨vs, seg, hpath, hchain, hmap⟩ := h
  obtain ⟨ndt, ht, htn⟩ := chain_last hchain
  have htl : s.tail < s.heap.length := lt_length_of_getElem? ht
  have hht : s.head ≤ s.tail := chain_le hchain
  set heap1 : Heap := s.heap ++ [some { next := none, message := m }] with hheap1
  have h1len : heap1.length = s.heap.length + 1 := by simp [hheap1]
  have h1t : heap1[s.tail]? = some (some ndt) := by
    rw [hheap1, List.getElem?_append_left htl]; exact ht
  set heap2 : Heap :=
    heap1.set s.tail (some { next := some s.heap.length, message := ndt.message })
    with hheap2
  have henq : enqueue s m =
      { s with heap := heap2, tail := s.heap.length } := by
    show push_back { s with heap := heap1 } s.heap.length = _
    unfold push_back
    rw [show ({ s with heap := heap1 } : State).tail = s.tail from rfl,
      setNext_of_getElem? h1t]
  have hF1 : ∀ i, i ≠ s.tail → i < s.heap.length → heap2[i]? = s.heap[i]? := by
    intro i hne hlt
    rw [hheap2, List.getElem?_set_ne (Ne.symm hne), hheap1,
      List.getElem?_append_left hlt]
  have hF2 : heap2[s.tail]? =
      some (some { next := some s.heap.length, message := ndt.message }) := by
    rw [hheap2, List.getElem?_set_eq (by omega)]
  have hF3 : heap2[s.heap.length]? = some (some { next := none, message := m }) := by
    rw [hheap2, List.getElem?_set_ne (by omega), hheap1]
    exact List.getElem?_concat_length _ _
  rw [henq]
  refine ⟨vs, seg ++ [(s.heap.length, m)], ?_, ?_, ?_⟩
  · refine path_congr_mem hpath fun v hv => ?_
    have := path_mem hpath v hv
    exact hF1 v (by omega) (by omega)
  · exact chain_snoc hchain ht
      (fun i h1 h2 => hF1 i h2 (by omega)) hF2 hF3 (by omega)
  · simp [hmap]

/-- A single drain emits exactly the pending messages and moves the
emission cursor to the tail. -/
theorem drain_spec {s : State} {p : List (List Nat)} (h : Rep s p) :
    drain s = (p, { s with head := s.tail }) := by
  obtain ⟨vs, seg, hpath, hchain, hmap⟩ := h
  obtain ⟨ndt, ht, -⟩ := chain_last hchain
  have htl : s.tail < s.heap.length := lt_length_of_getElem? ht
  have hlen : seg.length ≤ s.heap.length := by
    have := chain_length hchain; omega
  have hd := drainLoop_chain hchain s.heap.length hlen
  simp [drain, hd, hmap]

/-- Draining preserves the invariant, leaving no pending messages. -/
theorem drain_rep {s : State} {p : List (List Nat)} (h : Rep s p) :
    Rep { s with head := s.tail } [] := by
  obtain ⟨vs, seg, hpath, hchain, hmap⟩ := h
  obtain ⟨ndt, ht, htn⟩ := chain_last hchain
  obtain ⟨ws, hws⟩ := chain_to_path hchain
  exact ⟨vs ++ ws, [], path_append hpath hws, .nil s.tail ndt ht htn, rfl⟩

/-- What one run of the reclaimer does to the heap: it frees exactly the
addresses on the retired path from the frontier to the emission cursor
(all strictly below the cursor) and touches nothing else. -/
theorem free_excess_spec {s : State} {p : List (List Nat)} (h : Rep s p) :
    ∃ vs, Path s.heap s.malloc_head vs s.head ∧
      (∀ v ∈ vs, s.malloc_head ≤ v ∧ v < s.head) ∧
      ∀ i, (free_excess s).heap[i]? =
        if i ∈ vs then some none else s.heap[i]? := by
  obtain ⟨vs, seg, hpath, hchain, -⟩ := h
  have hh : s.head < s.heap.length := by
    obtain ⟨nd, hnd⟩ := chain_first hchain
    exact lt_length_of_getElem? hnd
  have hlen : vs.length ≤ s.heap.length := by
    have := path_length hpath; omega
  exact ⟨vs, hpath, path_mem hpath,
    fun i => freeLoop_path hpath s.heap.length hlen i⟩

/-- Reclamation preserves the invariant and the pending messages. -/
theorem free_excess_rep {s : State} {p : List (List Nat)} (h : Rep s p) :
    Rep (free_excess s) p := by
  obtain ⟨vs, hpath, hmem, hheap⟩ := free_excess_spec h
  obtain ⟨-, seg, -, hchain, hmap⟩ := h
  refine ⟨[], seg, ?_, ?_, hmap⟩
  · show Path _ s.head [] s.head
    exact .nil s.head
  · have hhd : (free_excess s).head = s.head := rfl
    have htl : (free_excess s).tail = s.tail := rfl
    refine chain_congr (fun i h1 h2 => ?_) hchain
    rw [hhd] at h1
    rw [hheap i, if_neg]
    intro hin
    have := hmem i hin
    omega

/-- The three queue operations, each performed by its designated thread:
enqueue (control thread, writer), drain (real-time thread, reader) and
reclaim (control thread, reclaimer). -/
inductive QOp where
  | enq (message : List Nat)
  | drainOp
  | reclaim
  deriving Repr, DecidableEq

/-- Apply one queue operation to a state. -/
def applyOp (s : State) : QOp → State
  | .enq m => enqueue s m
  | .drainOp => (drain s).2
  | .reclaim => free_excess s

/-- A state reached from the initial queue by a sequence of operations. -/
def runOps (ops : List QOp) : State :=
  ops.foldl applyOp initState

/-- Every state reached by a sequence of enqueue/drain/reclaim calls
satisfies the queue invariant for some pending list. -/
theorem runOps_rep (ops : List QOp) : ∃ p, Rep (runOps ops) p := by
  suffices h : ∀ (ops : List QOp) (s : State) (p : List (List Nat)),
      Rep s p → ∃ q, Rep (ops.foldl applyOp s) q from
    h ops initState [] rep_init
  intro ops
  induction ops with
  | nil => intro s p h; exact ⟨p, h⟩
  | cons op ops ih =>
    intro s p h
    cases op with
    | enq m => exact ih _ _ (enqueue_rep m h)
    | drainOp =>
      have hd : (drain s).2 = { s with head := s.tail } := by
        rw [drain_spec h]
      rw [List.foldl_cons, show applyOp s .drainOp = (drain s).2 from rfl, hd]
      exact ih _ _ (drain_rep h)
    | reclaim => exact ih _ _ (free_excess_rep h)

/-- Pointer reachability through the published `next` links, the sense in
which the real-time thread "might still reach" a node from its cursor. -/
inductive Reaches (heap : Heap) : Nat → Nat → Prop
  | refl (a : Nat) : Reaches heap a a
  | step (a b c : Nat) (nd : Node) (h : Reaches heap a b)
      (hb : heap[b]? = some (some nd)) (hn : nd.next = some c) :
      Reaches heap a c

theorem chain_next {heap : Heap} {a t : Nat} {seg : List (Nat × List Nat)}
    (hc : Chain heap a seg t) :
    ∀ b nd c, heap[b]? = some (some nd) → nd.next = some c →
      (b = a ∨ b ∈ seg.map Prod.fst) → c ∈ seg.map Prod.fst := by
  induction hc with
  | nil a nd0 h0 hn0 =>
    intro b nd c hb hn hin
    rcases hin with rfl | hin
    · rw [h0] at hb; injection hb with hb; injection hb with hb
      rw [← hb, hn0] at hn; exact Option.noConfusion hn
    · simp at hin
  | cons a b' t nd0 nd' seg h0 hn0 hab h' hc ih =>
    intro b nd c hb hn hin
    simp only [List.map_cons, List.mem_cons]
    rcases hin with rfl | hin
    · rw [h0] at hb; injection hb with hb; injection hb with hb
      subst hb
      rw [hn0] at hn; injection hn with hn
      exact Or.inl hn.symm
    · simp only [List.map_cons, List.mem_cons] at hin
      rcases hin with rfl | hin
      · exact Or.inr (ih b nd c hb hn (Or.inl rfl))
      · exact Or.inr (ih b nd c hb hn (Or.inr hin))

/-- Everything reachable from the chain's first node lies on the chain. -/
theorem reaches_chain {heap : Heap} {a t b : Nat} {seg : List (Nat × List Nat)}
    (hc : Chain heap a seg t) (hr : Reaches heap a b) :
    b = a ∨ b ∈ seg.map Prod.fst := by
  induction hr with
  | refl => exact Or.inl rfl
  | step b c nd h hb hn ih =>
    exact Or.inr (chain_next hc b nd c hb hn ih)

theorem foldl_enqueue_rep :
    ∀ (msgs : List (List Nat)) (s : State) (p : List (List Nat)),
      Rep s p → Rep (msgs.foldl enqueue s) (p ++ msgs) := by
  intro msgs
  induction msgs with
  | nil => intro s p h; simpa using h
  | cons m ms ih =>
    intro s p h
    have := ih (enqueue s m) (p ++ [m]) (enqueue_rep m h)
    simpa using this

theorem foldl_enqueue_head (msgs : List (List Nat)) :
    ∀ s : State, (msgs.foldl enqueue s).head = s.head := by
  induction msgs with
  | nil => intro s; rfl
  | cons m ms ih => intro s; rw [List.foldl_cons, ih]; rfl

theorem enqueue_heap_length (s : State) (m : List Nat) :
    (enqueue s m).heap.length = s.heap.length + 1 := by
  show (setNext _ _ _).length = _
  rw [setNext_length]
  simp [node_new]

theorem foldl_enqueue_tail (msgs : List (List Nat)) :
    ∀ s : State, msgs ≠ [] →
      (msgs.foldl enqueue s).tail = s.heap.length + msgs.length - 1 := by
  induction msgs with
  | nil => intro s h; exact absurd rfl h
  | cons m ms ih =>
    intro s _
    rw [List.foldl_cons]
    cases hms : ms with
    | nil =>
      show (enqueue s m).tail = _
      show s.heap.length = _
      simp
    | cons m' ms' =>
      rw [← hms, ih (enqueue s m) (by simp [hms]), enqueue_heap_length]
      simp only [List.length_cons]
      omega

/-- C1: for every sequence of messages enqueued via `push_back` onto the
queue initialised with a single empty sentinel node, one drain invoked
after all the enqueues emits exactly those payloads in enqueue order and
leaves the emission cursor at the queue's tail — which is the address of
the last enqueued node (the k-th enqueue allocates address k, so after N
enqueues the tail is address N). -/
theorem no_data_loss_single_drain (msgs : List (List Nat)) :
    (drain (msgs.foldl enqueue initState)).1 = msgs ∧
    (drain (msgs.foldl enqueue initState)).2.head =
      (msgs.foldl enqueue initState).tail ∧
    (msgs ≠ [] → (msgs.foldl enqueue initState).tail = msgs.length) := by
  have hrep : Rep (msgs.foldl enqueue initState) msgs := by
    simpa using foldl_enqueue_rep msgs initState [] rep_init
  have hd := drain_spec hrep
  refine ⟨by rw [hd], by rw [hd], fun hne => ?_⟩
  rw [foldl_enqueue_tail msgs initState hne]
  show 1 + msgs.length - 1 = msgs.length
  omega

/-- C1 witness: two concrete messages are emitted in order by a single
drain, and the cursor ends at the tail, address 2. -/
theorem no_data_loss_single_drain_witness :
    (drain ([[144, 64, 127], [128]].foldl enqueue initState)).1 =
      [[144, 64, 127], [128]] ∧
    (([[144, 64, 127], [128]] : List (List Nat)).foldl enqueue initState).tail =
      2 := by
  refine ⟨(no_data_loss_single_drain [[144, 64, 127], [128]]).1, ?_⟩
  exact (no_data_loss_single_drain [[144, 64, 127], [128]]).2.2 (by decide)

/-- C2: after any sequence of enqueue/drain/reclaim calls, one run of the
reclaimer advances its frontier (`malloc_head`) to the loaded emission
cursor, frees exactly the nodes on the retired path from its old frontier
up to but not including the cursor (all at addresses strictly below the
cursor), leaves every other heap entry untouched, and in particular never
frees a node still reachable from the emission cursor. -/
theorem reclamation_safety (ops : List QOp) :
    (free_excess (runOps ops)).malloc_head = (runOps ops).head ∧
    ∃ vs, Path (runOps ops).heap (runOps ops).malloc_head vs (runOps ops).head ∧
      (∀ v ∈ vs, (runOps ops).malloc_head ≤ v ∧ v < (runOps ops).head) ∧
      (∀ i, (free_excess (runOps ops)).heap[i]? =
        if i ∈ vs then some none else (runOps ops).heap[i]?) ∧
      (∀ b, Reaches (runOps ops).heap (runOps ops).head b →
        (free_excess (runOps ops)).heap[b]? = (runOps ops).heap[b]?) := by
  obtain ⟨p, hrep⟩ := runOps_rep ops
  obtain ⟨vs, hpath, hmem, hheap⟩ := free_excess_spec hrep
  refine ⟨rfl, vs, hpath, hmem, hheap, fun b hr => ?_⟩
  obtain ⟨-, seg, -, hchain, -⟩ := hrep
  have hb : b = (runOps ops).head ∨ b ∈ seg.map Prod.fst :=
    reaches_chain hchain hr
  rw [hheap b, if_neg]
  intro hin
  have h1 := hmem b hin
  rcases hb with rfl | hb
  · omega
  · have hex : ∃ m, (b, m) ∈ seg := by
      obtain ⟨q, hq, hq2⟩ := List.mem_map.mp hb
      refine ⟨q.2, ?_⟩
      have hqe : q = (b, q.2) := by
        rw [← hq2]
      rw [← hqe]
      exact hq
    obtain ⟨m, hm⟩ := hex
    have := chain_mem hchain (b, m) hm
    omega

/-- C2 witness: one enqueue then one drain; the reclaimer advances the
frontier to the cursor and leaves the cursor's own node untouched. -/
theorem reclamation_safety_witness :
    (free_excess (runOps [QOp.enq [7], QOp.drainOp])).malloc_head =
      (runOps [QOp.enq [7], QOp.drainOp]).head ∧
    (free_excess (runOps [QOp.enq [7], QOp.drainOp])).heap[
        (runOps [QOp.enq [7], QOp.drainOp]).head]? =
      (runOps [QOp.enq [7], QOp.drainOp]).heap[
        (runOps [QOp.enq [7], QOp.drainOp]).head]? := by
  obtain ⟨h1, vs, hpath, hmem, hheap, hreach⟩ :=
    reclamation_safety [QOp.enq [7], QOp.drainOp]
  exact ⟨h1, hreach _ (Reaches.refl _)⟩

/-- A successful decode consumes exactly two characters per payload
byte. -/
theorem hexPairs_length : ∀ (l : List Char) (m : List Nat),
    hexPairs l = some m → l.length = 2 * m.length
  | [], m, h => by
    simp only [hexPairs, Option.some.injEq] at h
    subst h; rfl
  | [_], m, h => Option.noConfusion h
  | c1 :: c2 :: rest, m, h => by
    simp only [hexPairs] at h
    cases h1 : hex_to_int c1 with
    | none => rw [h1] at h; simp at h
    | some hi =>
      cases h2 : hex_to_int c2 with
      | none => rw [h1, h2] at h; simp at h
      | some lo =>
        rw [h1, h2] at h
        cases h3 : hexPairs rest with
        | none => rw [h3] at h; simp at h
        | some bs =>
          rw [h3] at h
          simp only [Option.some.injEq] at h
          subst h
          have := hexPairs_length rest bs h3
          simp only [List.length_cons, this]
          omega

/-- Allocating an unlinked node (appending a fresh heap entry) does not
disturb the queue invariant. -/
theorem rep_append {s : State} {p : List (List Nat)} (x : Option Node)
    (h : Rep s p) : Rep { s with heap := s.heap ++ [x] } p := by
  obtain ⟨vs, seg, hpath, hchain, hmap⟩ := h
  obtain ⟨ndt, ht, -⟩ := chain_last hchain
  have htl : s.tail < s.heap.length := lt_length_of_getElem? ht
  refine ⟨vs, seg, ?_, ?_, hmap⟩
  · refine path_congr_mem hpath fun v hv => ?_
    obtain ⟨nd, hnd⟩ := path_live hpath v hv
    exact List.getElem?_append_left (lt_length_of_getElem? hnd)
  · refine chain_congr (fun i h1 h2 => ?_) hchain
    have h2' : i ≤ s.tail := h2
    exact List.getElem?_append_left (by omega)

/-- C5: per-line error handling of the message decoder.  An odd-length
line is reported as a length error and dropped (the queue invariant and
the pending messages are untouched, and the cursor and tail do not move);
an invalid hex character is reported as a digit error and likewise
dropped; a well-formed line is consumed at exactly two characters per
payload byte and its message is enqueued.  Because the invariant is
re-established in every case, processing of subsequent lines continues
unimpeded after an error. -/
theorem per_line_error_handling (s : State) (p : List (List Nat))
    (line : List Char) (hrep : Rep s p) :
    (line.length % 2 = 1 →
      (handle_line s line).2 = some LineError.badLength ∧
      (handle_line s line).1.head = s.head ∧
      (handle_line s line).1.tail = s.tail ∧
      Rep (handle_line s line).1 p) ∧
    (line.length % 2 ≠ 1 → hexPairs line = none →
      (handle_line s line).2 = some LineError.badDigit ∧
      (handle_line s line).1.head = s.head ∧
      (handle_line s line).1.tail = s.tail ∧
      Rep (handle_line s line).1 p) ∧
    (∀ msg, hexPairs line = some msg →
      (handle_line s line).2 = none ∧
      line.length = 2 * msg.length ∧
      Rep (handle_line s line).1 (p ++ [msg])) := by
  have hs1 : Rep (free_excess s) p := free_excess_rep hrep
  refine ⟨fun hodd => ?_, fun hodd hbad => ?_, fun msg hmsg => ?_⟩
  · have he : handle_line s line = (free_excess s, some .badLength) := by
      simp [handle_line, hodd]
    rw [he]
    exact ⟨rfl, rfl, rfl, hs1⟩
  · have he : handle_line s line =
        ({ free_excess s with
            heap := (free_excess s).heap ++
              [some { next := none,
                      message := List.replicate (line.length / 2) 0 }] },
          some .badDigit) := by
      simp [handle_line, hodd, hbad]
    rw [he]
    exact ⟨rfl, rfl, rfl, rep_append _ hs1⟩
  · have hodd : ¬line.length % 2 = 1 := by
      rw [hexPairs_length line msg hmsg]
      omega
    have he : handle_line s line = (enqueue (free_excess s) msg, none) := by
      simp [handle_line, hodd, hmsg]
    rw [he]
    exact ⟨rfl, hexPairs_length line msg hmsg, enqueue_rep msg hs1⟩

/-- C5 witness: the three cases at concrete inputs, starting from the
initial queue: an odd line `"9"`, a bad-digit line `"0g"`, and the
well-formed line `"90"` (one payload byte). -/
theorem per_line_error_handling_witness :
    (handle_line initState ['9']).2 = some LineError.badLength ∧
    (handle_line initState ['0', 'g']).2 = some LineError.badDigit ∧
    (handle_line initState ['9', '0']).2 = none := by
  refine ⟨?_, ?_, ?_⟩
  · exact ((per_line_error_handling initState [] ['9'] rep_init).1
      (by decide)).1
  · exact ((per_line_error_handling initState [] ['0', 'g'] rep_init).2.1
      (by decide) (by decide)).1
  · exact ((per_line_error_handling initState [] ['9', '0'] rep_init).2.2
      [144] (by decide)).1

/-- C9: when `handle_line` meets an invalid hex character (on a line of
even length, so the digit loop runs), it returns without calling
`push_back`: the emission cursor, the tail, and every heap entry from the
cursor through the tail — in particular every published link — are
exactly as before the call, even though one fresh node has been
allocated (the heap has grown by one entry). -/
theorem decode_error_leaves_queue (s : State) (p : List (List Nat))
    (line : List Char) (hrep : Rep s p)
    (heven : line.length % 2 ≠ 1) (hbad : hexPairs line = none) :
    (handle_line s line).1.head = s.head ∧
    (handle_line s line).1.tail = s.tail ∧
    (∀ i, s.head ≤ i → i ≤ s.tail → (handle_line s line).1.heap[i]? = s.heap[i]?) ∧
    (handle_line s line).1.heap.length = s.heap.length + 1 := by
  obtain ⟨vs, hpath, hmem, hheap⟩ := free_excess_spec hrep
  obtain ⟨-, seg, -, hchain, -⟩ := hrep
  obtain ⟨ndt, ht, -⟩ := chain_last hchain
  have htl : s.tail < s.heap.length := lt_length_of_getElem? ht
  have hlen1 : (free_excess s).heap.length = s.heap.length := by
    show (freeLoop _ _ _ _).length = _
    exact freeLoop_length
  have he : handle_line s line =
      ({ free_excess s with
          heap := (free_excess s).heap ++
            [some { next := none,
                    message := List.replicate (line.length / 2) 0 }] },
        some .badDigit) := by
    simp [handle_line, heven, hbad]
  rw [he]
  refine ⟨rfl, rfl, fun i h1 h2 => ?_, by simp [hlen1]⟩
  show ((free_excess s).heap ++ _)[i]? = _
  rw [List.getElem?_append_left (by omega), hheap i, if_neg]
  intro hin
  have := hmem i hin
  omega

/-- C9 witness: decoding the even-length line `"0g"` from a state with
one pending message leaves cursor, tail and the published entries intact
while the heap has grown by the leaked allocation. -/
theorem decode_error_leaves_queue_witness :
    (handle_line (enqueue initState [5]) ['0', 'g']).1.head =
      (enqueue initState [5]).head ∧
    (handle_line (enqueue initState [5]) ['0', 'g']).1.tail =
      (enqueue initState [5]).tail ∧
    (handle_line (enqueue initState [5]) ['0', 'g']).1.heap[1]? =
      (enqueue initState [5]).heap[1]? ∧
    (handle_line (enqueue initState [5]) ['0', 'g']).1.heap.length =
      (enqueue initState [5]).heap.length + 1 := by
  have hrep : Rep (enqueue initState [5]) [[5]] := by
    have := enqueue_rep [5] rep_init
    simpa using this
  obtain ⟨h1, h2, h3, h4⟩ := decode_error_leaves_queue (enqueue initState [5])
    [[5]] ['0', 'g'] hrep (by decide) (by decide)
  exact ⟨h1, h2, h3 1 (by decide) (by decide), h4⟩

/-- `hex_to_int` inverts `int_to_hex` on every nibble. -/
theorem hex_to_int_int_to_hex (n : Nat) (h : n ≤ 15) :
    hex_to_int (int_to_hex n) = some n := by
  interval_cases n <;> decide

theorem encodeMsg_length (msg : List Nat) :
    (encodeMsg msg).length = 2 * msg.length := by
  induction msg with
  | nil => rfl
  | cons v rest ih =>
    simp only [encodeMsg, List.flatMap_cons, List.cons_append, List.nil_append,
      List.length_cons] at *
    omega

theorem hexPairs_encodeMsg (msg : List Nat) (h : ∀ b ∈ msg, b < 256) :
    hexPairs (encodeMsg msg) = some msg := by
  induction msg with
  | nil => rfl
  | cons v rest ih =>
    have hv : v < 256 := h v (List.mem_cons_self v rest)
    have h1 : hex_to_int (int_to_hex (v / 16)) = some (v / 16) :=
      hex_to_int_int_to_hex _ (by omega)
    have h2 : hex_to_int (int_to_hex (v % 16)) = some (v % 16) :=
      hex_to_int_int_to_hex _ (by omega)
    have hrest := ih fun b hb => h b (List.mem_cons_of_mem v hb)
    have hv16 : v / 16 * 16 + v % 16 = v := by omega
    show hexPairs (int_to_hex (v / 16) :: int_to_hex (v % 16) :: encodeMsg rest) =
      some (v :: rest)
    simp only [hexPairs, h1, h2]
    rw [hrest, hv16]

/-- C4: the codec round trip.  Encoding any byte sequence (two hex digits
per byte, a single terminating line feed, an empty message being a bare
line feed) and decoding the resulting line returns exactly the original
bytes; the decoder accepts uppercase and lowercase hex digits
equivalently; and every odd-length hex line is a decode error producing
no message. -/
theorem codec_round_trip :
    (∀ msg : List Nat, (∀ b ∈ msg, b < 256) →
      decodeLine (encodeMsg msg) = some msg) ∧
    encodeLine [] = ['\n'] ∧
    (hex_to_int 'A' = hex_to_int 'a' ∧ hex_to_int 'B' = hex_to_int 'b' ∧
      hex_to_int 'C' = hex_to_int 'c' ∧ hex_to_int 'D' = hex_to_int 'd' ∧
      hex_to_int 'E' = hex_to_int 'e' ∧ hex_to_int 'F' = hex_to_int 'f' ∧
      hex_to_int 'a' = some 10 ∧ hex_to_int 'F' = some 15) ∧
    (∀ line : List Char, line.length % 2 = 1 → decodeLine line = none) := by
  refine ⟨fun msg h => ?_, by decide, by decide, fun line hodd => ?_⟩
  · have hlen : (encodeMsg msg).length % 2 = 0 := by
      rw [encodeMsg_length]; omega
    rw [decodeLine, if_neg (by omega), hexPairs_encodeMsg msg h]
  · rw [decodeLine, if_pos hodd]

/-- C4 witness: the concrete message `90 40` round-trips, and the
odd-length line `"9"` decodes to nothing. -/
theorem codec_round_trip_witness :
    decodeLine (encodeMsg [144, 64]) = some [144, 64] ∧
    decodeLine ['9'] = none := by
  exact ⟨codec_round_trip.1 [144, 64] (by decide),
    codec_round_trip.2.2.2 ['9'] (by decide)⟩

/-- C3: resynchronisation.  If an `'X'` byte arrives after a partial line
`u` (no terminator and no marker inside `u`), the decoder's subsequent
behaviour is identical to starting with an empty accumulator on the rest
of the stream: exactly the bytes collected since the last terminator or
marker (the accumulator plus `u`) are discarded, every later complete
line is decoded as if the corruption never happened, and no truncated
line is ever delivered as a message. -/
theorem resync_discards_partial_line (cap : Nat) (acc u v : List Char)
    (hn : '\n' ∉ u) (hx : 'X' ∉ u) :
    feedBytes cap acc (u ++ 'X' :: v) = feedBytes cap [] v := by
  induction u generalizing acc with
  | nil => simp [feedBytes]
  | cons c u ih =>
    have hcn : c ≠ '\n' := fun hc => hn (hc ▸ List.mem_cons_self c u)
    have hcx : c ≠ 'X' := fun hc => hx (hc ▸ List.mem_cons_self c u)
    have hn' : '\n' ∉ u := fun hc => hn (List.mem_cons_of_mem c hc)
    have hx' : 'X' ∉ u := fun hc => hx (List.mem_cons_of_mem c hc)
    show feedBytes cap acc (c :: (u ++ 'X' :: v)) = _
    rw [feedBytes]
    simp only [hcx, hcn, if_false]
    by_cases hlt : acc.length < cap
    · rw [if_pos hlt]; exact ih _ hn' hx'
    · rw [if_neg hlt]; exact ih _ hn' hx'

/-- C3 witness: an `'X'` injected mid-line makes the decoder drop the
collected bytes and resume cleanly on the following complete line. -/
theorem resync_discards_partial_line_witness :
    feedBytes 1023 ['9'] (['0', '4'] ++ 'X' :: ['9', '0', '\n']) =
      feedBytes 1023 [] ['9', '0', '\n'] :=
  resync_discards_partial_line 1023 ['9'] ['0', '4'] ['9', '0', '\n']
    (by decide) (by decide)

theorem feedBytes_line (cap : Nat) (u w : List Char)
    (hn : '\n' ∉ u) (hx : 'X' ∉ u) :
    ∀ acc, feedBytes cap acc (u ++ '\n' :: w) =
      ((feedBytes cap [] w).1,
        (acc ++ u.take (cap - acc.length)) :: (feedBytes cap [] w).2) := by
  induction u with
  | nil => intro acc; simp [feedBytes]
  | cons c u ih =>
    intro acc
    have hcn : c ≠ '\n' := fun hc => hn (hc ▸ List.mem_cons_self c u)
    have hcx : c ≠ 'X' := fun hc => hx (hc ▸ List.mem_cons_self c u)
    have hn' : '\n' ∉ u := fun hc => hn (List.mem_cons_of_mem c hc)
    have hx' : 'X' ∉ u := fun hc => hx (List.mem_cons_of_mem c hc)
    show feedBytes cap acc (c :: (u ++ '\n' :: w)) = _
    rw [feedBytes]
    simp only [hcx, hcn, if_false]
    by_cases hlt : acc.length < cap
    · rw [if_pos hlt, ih hn' hx' (acc ++ [c])]
      have hk : cap - acc.length = (cap - (acc ++ [c]).length) + 1 := by
        simp only [List.length_append, List.length_cons, List.length_nil]
        omega
      rw [hk, List.take_succ_cons, List.append_cons acc c
        (u.take (cap - (acc ++ [c]).length))]
    · rw [if_neg hlt, ih hn' hx' acc]
      have hk : cap - acc.length = 0 := by omega
      rw [hk, List.take_zero, List.take_zero]

/-- C8: bounded line accumulation.  For an input line `u` longer than the
buffer capacity, the bytes beyond the bound are silently dropped — no
crash and no diagnostic, the splitter simply stops appending — and the
truncated line (exactly the first `cap` bytes) is still delivered to the
line handler when its terminator arrives, with processing of the rest of
the stream unaffected. -/
theorem long_line_truncated (cap : Nat) (u w : List Char)
    (hn : '\n' ∉ u) (hx : 'X' ∉ u) (hlong : cap < u.length) :
    feedBytes cap [] (u ++ '\n' :: w) =
      ((feedBytes cap [] w).1, u.take cap :: (feedBytes cap [] w).2) ∧
    (u.take cap).length = cap := by
  have h := feedBytes_line cap u w hn hx []
  simp only [List.nil_append, Nat.sub_zero] at h
  exact ⟨h, by simp [List.length_take]; omega⟩

/-- C8 witness: a five-byte line against capacity three is delivered
truncated to its first three bytes. -/
theorem long_line_truncated_witness :
    feedBytes 3 [] (['a', 'b', 'c', 'd', 'e'] ++ '\n' :: ['f', '\n']) =
      ((feedBytes 3 [] ['f', '\n']).1,
        ['a', 'b', 'c'] :: (feedBytes 3 [] ['f', '\n']).2) ∧
    (['a', 'b', 'c', 'd', 'e'].take 3).length = 3 := by
  have h := long_line_truncated 3 ['a', 'b', 'c', 'd', 'e'] ['f', '\n']
    (by decide) (by decide) (by decide)
  exact ⟨h.1, h.2⟩

/-- What `poll` reported for the control-input descriptor on one wake:
no event, `POLLIN` with the currently available bytes (`eof` true when
the read loop finally saw `read == 0`), or a non-`POLLIN` event such as
`POLLHUP` (the final `else if (pollfds[1].revents)` arm). -/
inductive StdinEvent where
  | silent
  | readable (bytes : List Char) (eof : Bool)
  | hangup
  deriving Repr, DecidableEq

/-- The event loop's per-iteration state (src/cv.c lines 263-311 and
src/jack-stdin-to-midi.c lines 290-343): the handler-specific state `σ`,
the line accumulator, and whether the control input stream is still open
(`pollfds[1].fd != -1`). -/
structure LoopSt (σ : Type) where
  st : σ
  acc : List Char
  stdinOpen : Bool
  deriving Repr, DecidableEq

/-- One wake of the event loop, parameterised by the per-line handler
`h`.  Faithful to the source order: the shutdown channel
(`pollfds[0].revents`) is checked first and breaks the loop immediately;
otherwise, if the input stream is open and readable, all available bytes
are read, split on terminators and resync markers, and the complete
lines are fed to the handler; end-of-file closes the stream
(`pollfds[1].fd = -1`) without terminating the loop.  The returned `Bool`
is true exactly when the loop exits. -/
def wake {σ : Type} (cap : Nat) (h : σ → List Char → σ) (ls : LoopSt σ)
    (shutdownReady : Bool) (ev : StdinEvent) : LoopSt σ × Bool :=
  if shutdownReady then (ls, true)
  else if ls.stdinOpen then
    match ev with
    | .silent => (ls, false)
    | .readable bytes eof =>
      let r := feedBytes cap ls.acc bytes
      ({ st := r.2.foldl h ls.st, acc := r.1, stdinOpen := !eof }, false)
    | .hangup => ({ ls with stdinOpen := false }, false)
  else (ls, false)

/-- C7: on each wake the shutdown channel is serviced first — when it is
set the loop exits immediately to the terminated state with nothing else
processed, regardless of any input readiness; end-of-file on the control
input closes that stream so that no later wake reads it, but does not
itself terminate the loop. -/
theorem shutdown_first_eof_nonfatal {σ : Type} (cap : Nat)
    (h : σ → List Char → σ) (ls : LoopSt σ) (ev : StdinEvent)
    (bytes : List Char) :
    wake cap h ls true ev = (ls, true) ∧
    ((wake cap h ls false (.readable bytes true)).1.stdinOpen = false ∧
      (wake cap h ls false (.readable bytes true)).2 = false) ∧
    (ls.stdinOpen = false → wake cap h ls false ev = (ls, false)) := by
  refine ⟨rfl, ?_, fun hclosed => ?_⟩
  · cases hso : ls.stdinOpen <;> simp [wake, hso]
  · cases ev <;> simp [wake, hclosed]

/-- C7 witness: with a trivial handler over `Nat` states, shutdown wins
over pending input bytes, and an end-of-file read closes the stream
without terminating the loop. -/
theorem shutdown_first_eof_nonfatal_witness :
    wake 127 (fun (n : Nat) _ => n + 1)
      ⟨0, [], true⟩ true (.readable ['1', '\n'] false) =
      (⟨0, [], true⟩, true) ∧
    (wake 127 (fun (n : Nat) _ => n + 1)
      ⟨0, [], true⟩ false (.readable ['1', '\n'] true)).1.stdinOpen = false ∧
    wake 127 (fun (n : Nat) _ => n + 1)
      ⟨7, [], false⟩ false (.readable ['1', '\n'] false) =
      (⟨7, [], false⟩, false) := by
  obtain ⟨h1, h2, -⟩ := shutdown_first_eof_nonfatal 127
    (fun (n : Nat) _ => n + 1) (⟨0, [], true⟩ : LoopSt Nat)
    (.readable ['1', '\n'] false) ['1', '\n']
  obtain ⟨-, -, h3⟩ := shutdown_first_eof_nonfatal 127
    (fun (n : Nat) _ => n + 1) (⟨7, [], false⟩ : LoopSt Nat)
    (.readable ['1', '\n'] false) ['1', '\n']
  exact ⟨h1, h2.1, h3 rfl⟩

/-- An ASCII decimal digit (`'0'` through `'9'`). -/
def isDigitM (c : Char) : Bool := '0' ≤ c && c ≤ '9'

/-- Numeric value of a decimal digit character. -/
def digitVal (c : Char) : Nat := c.toNat - '0'.toNat

/-- The natural number denoted by a digit string (most significant
first). -/
def natOfDigits (ds : List Char) : Nat :=
  ds.foldl (fun a c => a * 10 + digitVal c) 0

/-- The value produced by the scalar parse: either NaN or a finite
number, modelled over `ℚ` (the C `float` rounding of decimal literals is
outside this model; every claim under study uses exactly representable
values). -/
inductive FloatVal where
  | nan
  | num (q : ℚ)
  deriving Repr, DecidableEq

/-- Case-insensitive match of the three characters `nan` at the front. -/
def matchNan : List Char → Bool
  | c1 :: c2 :: c3 :: _ =>
    (c1 == 'n' || c1 == 'N') && (c2 == 'a' || c2 == 'A') &&
      (c3 == 'n' || c3 == 'N')
  | _ => false

/-- Exponent part: `e`/`E`, an optional sign, then digits; consumed only
when at least one digit follows.  Returns (exponent, characters
consumed). -/
def parseExp : List Char → Int × Nat
  | [] => (0, 0)
  | c :: rest =>
    if c == 'e' || c == 'E' then
      match rest with
      | '-' :: r2 =>
        let ds := r2.takeWhile isDigitM
        if ds.length = 0 then (0, 0)
        else (-(natOfDigits ds : Int), 2 + ds.length)
      | '+' :: r2 =>
        let ds := r2.takeWhile isDigitM
        if ds.length = 0 then (0, 0) else ((natOfDigits ds : Int), 2 + ds.length)
      | r2 =>
        let ds := r2.takeWhile isDigitM
        if ds.length = 0 then (0, 0) else ((natOfDigits ds : Int), 1 + ds.length)
    else (0, 0)

/-- Modelled from the spec: the `strtof` library call used by
`handle_line` in src/cv.c is not part of this repository; §4.4 specifies
"locale-independent base-10 floating point parsing" with rejected
not-a-number values.  This model implements the C-standard subject
sequence for base-10 `strtof`: optional leading whitespace, an optional
sign, either the keyword `nan` (case-insensitive) or a nonempty digit
sequence optionally containing one decimal point, then an optional
exponent.  It returns the parsed value and the number of characters
consumed (`0` when no conversion could be performed, i.e.
`endptr == line`).  The parsed value
`sign * (int + frac / 10 ^ fracDigits) * 10 ^ exp`
is assembled as the single exact fraction
`sign * digits(int ++ frac) * 10 ^ max(exp, 0) /
 10 ^ (fracDigits + max(-exp, 0))`.
Hexadecimal floats, infinities, the optional `nan(...)` suffix and
`ERANGE` are outside the model: no claim under study exercises them, and
`errno` is therefore modelled as always 0. -/
def strtofM (cs : List Char) : FloatVal × Nat :=
  let w := (cs.takeWhile fun c => c == ' ' || c == '\t').length
  let r1 := cs.drop w
  let sgn : Int × Nat :=
    match r1 with
    | '-' :: _ => (-1, 1)
    | '+' :: _ => (1, 1)
    | _ => (1, 0)
  let r2 := r1.drop sgn.2
  if matchNan r2 then (FloatVal.nan, w + sgn.2 + 3)
  else
    let d1 := r2.takeWhile isDigitM
    let r3 := r2.drop d1.length
    let dotFrac : List Char × Nat :=
      match r3 with
      | '.' :: r4 => (r4.takeWhile isDigitM, 1)
      | _ => ([], 0)
    let d2 := dotFrac.1
    if d1.length + d2.length = 0 then (FloatVal.num 0, 0)
    else
      let r5 := r3.drop (dotFrac.2 + d2.length)
      let e := parseExp r5
      let value : ℚ :=
        mkRat (sgn.1 * (natOfDigits (d1 ++ d2) : Int) * (10 : Int) ^ e.1.toNat)
          ((10 : Nat) ^ (d2.length + (-e.1).toNat))
      (FloatVal.num value, w + sgn.2 + d1.length + dotFrac.2 + d2.length + e.2)

/-- The diagnostics `handle_line` in src/cv.c can print: the two reject
reports and the two clamp notices. -/
inductive CvDiag where
  | parseError
  | nanError
  | clampLow
  | clampHigh
  deriving Repr, DecidableEq

/-- `handle_line` from src/cv.c: parse the line with `strtof`; reject it
(keeping the cell's prior value) when nothing was consumed or the value
is NaN (`value != value`); when clamping is compiled in
(`JACLI_CV_CLAMP`), clamp negative values to 0 and values above 1 to 1,
each with a notice; finally store the value into the atomic cell.
Returns the cell's new value and the diagnostic, if any. -/
def cv_handle_line (clamp : Bool) (prior : ℚ) (line : List Char) :
    ℚ × Option CvDiag :=
  let r := strtofM line
  if r.2 = 0 then (prior, some .parseError)
  else
    match r.1 with
    | .nan => (prior, some .nanError)
    | .num value =>
      if !clamp then (value, none)
      else if value < 0 then (0, some .clampLow)
      else if value > 1 then (1, some .clampHigh)
      else (value, none)

/-- C6: scalar clamp behaviour of the CV line handler.  With clamping
compiled in: input `1.5` stores `1.0` with a clamp notice, `-0.2` stores
`0.0` with a notice, `0.5` stores `0.5` unchanged, `nan` is rejected
with the prior value retained, and a malformed line (`abc`) is rejected
with a diagnostic, the cell keeping its previous value.  With clamping
disabled the parsed value `1.5` passes through unclamped. -/
theorem scalar_clamp_behaviour (prior : ℚ) :
    cv_handle_line true prior ['1', '.', '5'] = (1, some CvDiag.clampHigh) ∧
    cv_handle_line true prior ['-', '0', '.', '2'] = (0, some CvDiag.clampLow) ∧
    cv_handle_line true prior ['0', '.', '5'] = (mkRat 1 2, none) ∧
    cv_handle_line true prior ['n', 'a', 'n'] = (prior, some CvDiag.nanError) ∧
    cv_handle_line true prior ['a', 'b', 'c'] = (prior, some CvDiag.parseError) ∧
    cv_handle_line false prior ['1', '.', '5'] = (mkRat 3 2, none) := by
  have h15 : strtofM ['1', '.', '5'] = (FloatVal.num (mkRat 3 2), 3) := by decide
  have h02 : strtofM ['-', '0', '.', '2'] =
    (FloatVal.num (mkRat (-1) 5), 4) := by decide
  have h05 : strtofM ['0', '.', '5'] = (FloatVal.num (mkRat 1 2), 3) := by decide
  have hnan : strtofM ['n', 'a', 'n'] = (FloatVal.nan, 3) := by decide
  have habc : strtofM ['a', 'b', 'c'] = (FloatVal.num 0, 0) := by decide
  refine ⟨?_, ?_, ?_, ?_, ?_, ?_⟩
  · simp only [cv_handle_line, h15]
    rw [if_neg (by decide : ¬(3 : Nat) = 0)]
    decide
  · simp only [cv_handle_line, h02]
    rw [if_neg (by decide : ¬(4 : Nat) = 0)]
    decide
  · simp only [cv_handle_line, h05]
    rw [if_neg (by decide : ¬(3 : Nat) = 0)]
    decide
  · simp [cv_handle_line, hnan]
  · simp [cv_handle_line, habc]
  · simp [cv_handle_line, h15]

/-- C6 witness: the clamp cases evaluated at the concrete prior value
`1/4`: `nan` is rejected keeping the prior, and `1.5` clamps to `1`. -/
theorem scalar_clamp_behaviour_witness :
    cv_handle_line true (mkRat 1 4) ['n', 'a', 'n'] =
      (mkRat 1 4, some CvDiag.nanError) ∧
    cv_handle_line true (mkRat 1 4) ['1', '.', '5'] =
      (1, some CvDiag.clampHigh) :=
  ⟨(scalar_clamp_behaviour (mkRat 1 4)).2.2.2.1,
    (scalar_clamp_behaviour (mkRat 1 4)).1⟩

/-- C10: the scalar handler accepts any line whose leading prefix parses
as a finite float, storing that value regardless of trailing non-numeric
characters (`0.5abc` stores `0.5`), and reports a line as unparsable
exactly when no initial float literal could be extracted (no characters
consumed). -/
theorem prefix_parse_acceptance (clamp : Bool) (prior : ℚ) (line : List Char) :
    (∀ q n, strtofM line = (FloatVal.num q, n) → n ≠ 0 →
      cv_handle_line false prior line = (q, none)) ∧
    ((cv_handle_line clamp prior line).2 = some CvDiag.parseError ↔
      (strtofM line).2 = 0) ∧
    cv_handle_line true prior ['0', '.', '5', 'a', 'b', 'c'] =
      (mkRat 1 2, none) := by
  refine ⟨fun q n hs hn => ?_, ⟨?_, fun h => ?_⟩, ?_⟩
  · simp [cv_handle_line, hs, hn]
  · intro h
    rcases hsv : strtofM line with ⟨v, n⟩
    show n = 0
    by_cases hn : n = 0
    · exact hn
    · exfalso
      cases v with
      | nan => simp [cv_handle_line, hsv, hn] at h
      | num q =>
        cases clamp with
        | false => simp [cv_handle_line, hsv, hn] at h
        | true =>
          simp only [cv_handle_line, hsv, hn, if_neg hn, Bool.not_true] at h
          split_ifs at h <;> simp_all
  · simp [cv_handle_line, h]
  · have h : strtofM ['0', '.', '5', 'a', 'b', 'c'] =
      (FloatVal.num (mkRat 1 2), 3) := by decide
    simp only [cv_handle_line, h]
    rw [if_neg (by decide : ¬(3 : Nat) = 0)]
    decide

/-- C10 witness: `0.5abc` stores `0.5` (under either clamp setting), and
the letter line `z` is reported unparsable, matching zero consumed
characters. -/
theorem prefix_parse_acceptance_witness :
    cv_handle_line false 0 ['0', '.', '5', 'a', 'b', 'c'] = (mkRat 1 2, none) ∧
    ((cv_handle_line true 0 ['z']).2 = some CvDiag.parseError ↔
      (strtofM ['z']).2 = 0) := by
  exact ⟨(prefix_parse_acceptance false 0 ['0', '.', '5', 'a', 'b', 'c']).1
      (mkRat 1 2) 3 (by decide) (by decide),
    (prefix_parse_acceptance true 0 ['z']).2.1⟩

end Jacl
